import Mathlib

/-!
Verification of the multi-language example pipeline scripts
(`scripts/python/analyze.py`, the Enrichment Stage, and
`scripts/python/transform.py`, the Aggregation Stage).

Python dictionaries preserve insertion order, so every mapping is embedded
as an association list `List (String × _)` whose order is the iteration
order.  Scores are embedded as rationals, counts as integers.  Failures
(`KeyError` on a missing field, `ValueError` from `max` on an empty
sequence) are embedded as an `Except InputError` result.
-/

namespace Pipex

/-- Failure modes of a stage: a missing dictionary key (Python `KeyError`),
or `max` applied to an empty `categories` mapping (Python `ValueError`). -/
inductive InputError where
  | missingKey (k : String)
  | emptyCategories
deriving Repr, DecidableEq

/-- A category stats entry as read from the upstream JSON report: each of
`count` and `avgScore` may be absent. -/
structure RawStats where
  count : Option Int
  avgScore : Option ℚ
deriving Repr, DecidableEq

/-- A ranked language entry as read from the upstream JSON report. -/
structure RawRanked where
  language : Option String
  category : Option String
deriving Repr, DecidableEq

/-- The upstream report read by `analyze.py`; the `summary` and `ranked`
keys may be absent. -/
structure RawReport where
  summary : Option (List (String × RawStats))
  ranked : Option (List RawRanked)
deriving Repr, DecidableEq

/-- The rating expression of `analyze.py`:
`"excellent" if avgScore >= 90 else "good" if avgScore >= 80 else "fair"`. -/
def rating (avgScore : ℚ) : String :=
  if avgScore ≥ 90 then "excellent" else if avgScore ≥ 80 then "good" else "fair"

/-- One entry of the enriched `categories` mapping built by `analyze.py`. -/
structure EnrichedCategory where
  count : Int
  avgScore : ℚ
  rating : String
deriving Repr, DecidableEq

/-- The enriched document assembled by `analyze.py` (the timestamp is the
clock reading passed in by the caller). -/
structure EnrichedDocument where
  generatedBy : String
  timestamp : String
  sourceStep : String
  categories : List (String × EnrichedCategory)
  languagesByCategory : List (String × List String)
deriving Repr, DecidableEq

/-- The loop of `analyze.py` over `report["summary"].items()`: each entry
must provide `count` and `avgScore` (otherwise `KeyError`), and the rating
is attached. -/
def enrichCategories : List (String × RawStats) → Except InputError (List (String × EnrichedCategory))
  | [] => .ok []
  | (k, st) :: rest =>
    match st.count with
    | none => .error (.missingKey "count")
    | some c =>
      match st.avgScore with
      | none => .error (.missingKey "avgScore")
      | some a =>
        match enrichCategories rest with
        | .error e => .error e
        | .ok tail => .ok ((k, ⟨c, a, rating a⟩) :: tail)

/-- Field access `lang["category"]`, `lang["language"]` on each entry of
`report["ranked"]` (in the order the loop body performs them). -/
def validateRanked : List RawRanked → Except InputError (List (String × String))
  | [] => .ok []
  | entry :: rest =>
    match entry.category with
    | none => .error (.missingKey "category")
    | some cat =>
      match entry.language with
      | none => .error (.missingKey "language")
      | some lang =>
        match validateRanked rest with
        | .error e => .error e
        | .ok tail => .ok ((cat, lang) :: tail)

/-- One iteration of the grouping loop of `analyze.py`: create the list for
`cat` on first occurrence, then append the language to it. -/
def appendToGroup (m : List (String × List String)) (cat lang : String) :
    List (String × List String) :=
  if m.any (fun p => p.1 = cat) then
    m.map (fun p => if p.1 = cat then (p.1, p.2 ++ [lang]) else p)
  else
    m ++ [(cat, [lang])]

/-- The grouping loop of `analyze.py` over `report["ranked"]`, started from
the empty dictionary. -/
def groupLanguages (entries : List (String × String)) : List (String × List String) :=
  entries.foldl (fun m e => appendToGroup m e.1 e.2) []

/-- The whole transformation of `analyze.py`: read `summary` and `ranked`
(`KeyError` if absent), enrich each category, group the ranked languages. -/
def enrich (now : String) (r : RawReport) : Except InputError EnrichedDocument :=
  match r.summary with
  | none => .error (.missingKey "summary")
  | some sm =>
    match enrichCategories sm with
    | .error e => .error e
    | .ok cats =>
      match r.ranked with
      | none => .error (.missingKey "ranked")
      | some rk =>
        match validateRanked rk with
        | .error e => .error e
        | .ok entries =>
          .ok { generatedBy := "python-analyze"
                timestamp := now
                sourceStep := "node-transform"
                categories := cats
                languagesByCategory := groupLanguages entries }

/-- The list of output paths `analyze.py` writes: both files after all
derivations succeed, none on failure. -/
def analyzeFiles (now : String) (r : RawReport) : List (String × EnrichedDocument) :=
  match enrich now r with
  | .error _ => []
  | .ok d => [("/output/enriched.yaml", d), ("/output/enriched.json", d)]

/-- Result of running a stage script from the top: an explicit
`SystemExit`, an uncaught input failure, or a completed document. -/
inductive StageResult (α : Type) where
  | exited (code : Nat)
  | failed (e : InputError)
  | completed (doc : α)
deriving Repr, DecidableEq

/-- Top of `analyze.py`: try to create `/app/_write_test`; if the write
succeeds, print an error and `raise SystemExit(1)` (not an `OSError`, so it
escapes the handler); if the write raises `OSError`, fall through to the
normal read-enrich-write path.  `appWritable` abstracts whether the write
succeeds. -/
def analyzeMain (appWritable : Bool) (now : String) (r : RawReport) :
    StageResult EnrichedDocument :=
  if appWritable then
    .exited 1
  else
    match enrich now r with
    | .ok d => .completed d
    | .error e => .failed e

/-- The `bestCategory` sub-object of the summary. -/
structure BestCategory where
  name : String
  avgScore : ℚ
  rating : String
deriving Repr, DecidableEq

/-- One entry of the `allCategories` mapping of the summary. -/
structure AllCategoriesEntry where
  rating : String
  avgScore : ℚ
  languages : List String
deriving Repr, DecidableEq

/-- The summary document assembled by `transform.py`. -/
structure SummaryDocument where
  generatedBy : String
  timestamp : String
  pipeline : String
  stepsCompleted : List String
  totalLanguages : Nat
  bestCategory : BestCategory
  allCategories : List (String × AllCategoriesEntry)
deriving Repr, DecidableEq

/-- Python `max(categories.items(), key=lambda x: x[1]["avgScore"])`: on an
empty sequence `max` raises `ValueError`; otherwise it scans left to right
and replaces the current best only on a strictly greater key, so the first
entry attaining the maximum wins. -/
def pyMaxByAvgScore (l : List (String × EnrichedCategory)) :
    Except InputError (String × EnrichedCategory) :=
  match l with
  | [] => .error .emptyCategories
  | x :: xs => .ok (xs.foldl (fun best y => if y.2.avgScore > best.2.avgScore then y else best) x)

/-- Python `enriched["languagesByCategory"].get(cat, [])`. -/
def lookupLangs (m : List (String × List String)) (cat : String) : List String :=
  match m.find? (fun p => p.1 = cat) with
  | some p => p.2
  | none => []

/-- The whole transformation of `transform.py`: total language count, best
category by `max`, and the cross-referenced `allCategories` mapping. -/
def aggregate (now : String) (e : EnrichedDocument) : Except InputError SummaryDocument :=
  match pyMaxByAvgScore e.categories with
  | .error err => .error err
  | .ok best =>
    .ok { generatedBy := "python-transform"
          timestamp := now
          pipeline := "multi-lang-example"
          stepsCompleted := ["node-analyze", "node-transform", "python-analyze", "python-transform"]
          totalLanguages := (e.languagesByCategory.map (fun p => p.2.length)).sum
          bestCategory := ⟨best.1, best.2.avgScore, best.2.rating⟩
          allCategories := e.categories.map (fun p =>
            (p.1, ⟨p.2.rating, p.2.avgScore, lookupLangs e.languagesByCategory p.1⟩)) }

/-- The list of output paths `transform.py` writes: both files after all
derivations succeed, none on failure. -/
def transformFiles (now : String) (e : EnrichedDocument) : List (String × SummaryDocument) :=
  match aggregate now e with
  | .error _ => []
  | .ok s => [("/output/summary.yaml", s), ("/output/summary.json", s)]

end Pipex

namespace Pipex

/-- The spec phrase for the order of the grouped keys: each category
appears once, in the order it is first encountered. -/
def firstSeenOrder (ks : List String) : List String :=
  ks.foldl (fun acc k => if k ∈ acc then acc else acc ++ [k]) []

/-- The read-enrich path of `analyze.py` below the read-only self-check. -/
def enrichOutcome (now : String) (r : RawReport) : StageResult EnrichedDocument :=
  match enrich now r with
  | .ok d => .completed d
  | .error e => .failed e

/-- Output files written by a full run of `analyze.py`: none when the
read-only self-check aborts the script before any input is read. -/
def analyzeMainFiles (appWritable : Bool) (now : String) (r : RawReport) :
    List (String × EnrichedDocument) :=
  if appWritable then [] else analyzeFiles now r

/-- The in-memory value trees the scripts hand to `json.dump` and
`yaml.dump`: strings, integers, floats, arrays, insertion-ordered
objects. -/
inductive JValue where
  | str (s : String)
  | int (n : Int)
  | num (q : ℚ)
  | arr (xs : List JValue)
  | obj (fields : List (String × JValue))

/-- The value tree of the enriched document, with the key order in which
`analyze.py` inserts the keys. -/
def encodeEnriched (d : EnrichedDocument) : JValue :=
  .obj [("generatedBy", .str d.generatedBy),
        ("timestamp", .str d.timestamp),
        ("sourceStep", .str d.sourceStep),
        ("categories", .obj (d.categories.map (fun p =>
          (p.1, .obj [("count", .int p.2.count),
                      ("avgScore", .num p.2.avgScore),
                      ("rating", .str p.2.rating)])))),
        ("languagesByCategory", .obj (d.languagesByCategory.map (fun p =>
          (p.1, .arr (p.2.map .str)))))]

/-- The value tree of the summary document, with the key order in which
`transform.py` declares the keys. -/
def encodeSummary (s : SummaryDocument) : JValue :=
  .obj [("generatedBy", .str s.generatedBy),
        ("timestamp", .str s.timestamp),
        ("pipeline", .str s.pipeline),
        ("stepsCompleted", .arr (s.stepsCompleted.map .str)),
        ("totalLanguages", .int s.totalLanguages),
        ("bestCategory", .obj [("name", .str s.bestCategory.name),
                               ("avgScore", .num s.bestCategory.avgScore),
                               ("rating", .str s.bestCategory.rating)]),
        ("allCategories", .obj (s.allCategories.map (fun p =>
          (p.1, .obj [("rating", .str p.2.rating),
                      ("avgScore", .num p.2.avgScore),
                      ("languages", .arr (p.2.languages.map .str))]))))]

/-- Modelled from the spec: deserialization of a serialized enriched
category.  The serializers live in the external `json` and `yaml`
libraries, which (with `sort_keys=False`) are lossless, order-preserving
text encodings of these value trees, so deserializing either output file
is modelled as structurally decoding the value tree. -/
def decodeCategory : JValue → Option EnrichedCategory
  | .obj [("count", .int c), ("avgScore", .num a), ("rating", .str rt)] => some ⟨c, a, rt⟩
  | _ => none

/-- Modelled from the spec: deserialization of the `categories` object. -/
def decodeCategories : List (String × JValue) → Option (List (String × EnrichedCategory))
  | [] => some []
  | (k, v) :: rest =>
    match decodeCategory v with
    | none => none
    | some c =>
      match decodeCategories rest with
      | none => none
      | some tail => some ((k, c) :: tail)

/-- Modelled from the spec: deserialization of an array of strings. -/
def decodeStrings : List JValue → Option (List String)
  | [] => some []
  | .str s :: rest =>
    match decodeStrings rest with
    | none => none
    | some tail => some (s :: tail)
  | _ => none

/-- Modelled from the spec: deserialization of the `languagesByCategory`
object. -/
def decodeLangGroups : List (String × JValue) → Option (List (String × List String))
  | [] => some []
  | (k, .arr xs) :: rest =>
    match decodeStrings xs with
    | none => none
    | some langs =>
      match decodeLangGroups rest with
      | none => none
      | some tail => some ((k, langs) :: tail)
  | _ => none

/-- Modelled from the spec: deserialization of a serialized
EnrichedDocument. -/
def decodeEnriched : JValue → Option EnrichedDocument
  | .obj [("generatedBy", .str g), ("timestamp", .str t), ("sourceStep", .str src),
          ("categories", .obj cats), ("languagesByCategory", .obj groups)] =>
    match decodeCategories cats with
    | none => none
    | some cs =>
      match decodeLangGroups groups with
      | none => none
      | some gs => some ⟨g, t, src, cs, gs⟩
  | _ => none

/-- Modelled from the spec: deserialization of an `allCategories` entry. -/
def decodeAllCategoriesEntry : JValue → Option AllCategoriesEntry
  | .obj [("rating", .str rt), ("avgScore", .num a), ("languages", .arr xs)] =>
    match decodeStrings xs with
    | none => none
    | some langs => some ⟨rt, a, langs⟩
  | _ => none

/-- Modelled from the spec: deserialization of the `allCategories`
object. -/
def decodeAllCategories : List (String × JValue) → Option (List (String × AllCategoriesEntry))
  | [] => some []
  | (k, v) :: rest =>
    match decodeAllCategoriesEntry v with
    | none => none
    | some c =>
      match decodeAllCategories rest with
      | none => none
      | some tail => some ((k, c) :: tail)

/-- Modelled from the spec: deserialization of a serialized
SummaryDocument. -/
def decodeSummary : JValue → Option SummaryDocument
  | .obj [("generatedBy", .str g), ("timestamp", .str t), ("pipeline", .str pl),
          ("stepsCompleted", .arr steps), ("totalLanguages", .int n),
          ("bestCategory", .obj [("name", .str bn), ("avgScore", .num ba),
                                 ("rating", .str br)]),
          ("allCategories", .obj cats)] =>
    match decodeStrings steps with
    | none => none
    | some ss =>
      match decodeAllCategories cats with
      | none => none
      | some cs => some ⟨g, t, pl, ss, n.toNat, ⟨bn, ba, br⟩, cs⟩
  | _ => none

/-! ### Concrete documents used to exercise the theorems -/

/-- The end-to-end example report: one category "systems" scoring 91 with
two ranked languages. -/
def systemsReport : RawReport :=
  { summary := some [("systems", ⟨some 3, some 91⟩)]
    ranked := some [⟨some "Rust", some "systems"⟩, ⟨some "Go", some "systems"⟩] }

/-- A report missing both the `summary` and the `ranked` keys. -/
def missingKeysReport : RawReport :=
  { summary := none
    ranked := none }

/-- An enriched document whose `languagesByCategory` references category
"B", which is absent from `categories`. -/
def danglingKeyDoc : EnrichedDocument :=
  { generatedBy := "g"
    timestamp := "t"
    sourceStep := "s"
    categories := [("A", ⟨1, 85, "good"⟩)]
    languagesByCategory := [("B", ["x"])] }

/-- An enriched document with an empty `categories` mapping. -/
def emptyCategoriesDoc : EnrichedDocument :=
  { generatedBy := "g"
    timestamp := "t"
    sourceStep := "s"
    categories := []
    languagesByCategory := [("B", ["x"])] }

/-- An enriched document whose only category has no ranked languages. -/
def noLangsDoc : EnrichedDocument :=
  { generatedBy := "g"
    timestamp := "t"
    sourceStep := "s"
    categories := [("A", ⟨1, 85, "good"⟩)]
    languagesByCategory := [] }

/-- The three-category document of the best-category determinism example:
A scores 85, B and C both score 92, in that iteration order. -/
def tieDoc : EnrichedDocument :=
  { generatedBy := "g"
    timestamp := "t"
    sourceStep := "s"
    categories := [("A", ⟨1, 85, "good"⟩), ("B", ⟨1, 92, "excellent"⟩),
                   ("C", ⟨1, 92, "excellent"⟩)]
    languagesByCategory := [] }

end Pipex

namespace Pipex

/-! ### Helper lemmas -/

theorem aggregate_ok_elim {now : String} {e : EnrichedDocument} {s : SummaryDocument}
    (h : aggregate now e = .ok s) :
    ∃ best, pyMaxByAvgScore e.categories = .ok best ∧
      s = { generatedBy := "python-transform"
            timestamp := now
            pipeline := "multi-lang-example"
            stepsCompleted := ["node-analyze", "node-transform", "python-analyze", "python-transform"]
            totalLanguages := (e.languagesByCategory.map (fun p => p.2.length)).sum
            bestCategory := ⟨best.1, best.2.avgScore, best.2.rating⟩
            allCategories := e.categories.map (fun p =>
              (p.1, ⟨p.2.rating, p.2.avgScore, lookupLangs e.languagesByCategory p.1⟩)) } := by
  unfold aggregate at h
  cases hb : pyMaxByAvgScore e.categories with
  | error err => rw [hb] at h; exact absurd h (by simp)
  | ok best =>
    rw [hb] at h
    simp only [Except.ok.injEq] at h
    exact ⟨best, rfl, h.symm⟩

end Pipex

namespace Pipex

/-- C2: for every avgScore value v, the Enrichment Stage rating equals
"excellent" iff v ≥ 90, "good" iff 80 ≤ v < 90, "fair" iff v < 80; in
particular rating 90 = "excellent", rating 89.999 = "good",
rating 80 = "good", rating 79.999 = "fair". -/
theorem c2_rating_classification :
    (∀ v : ℚ, (rating v = "excellent" ↔ v ≥ 90) ∧
      (rating v = "good" ↔ 80 ≤ v ∧ v < 90) ∧
      (rating v = "fair" ↔ v < 80)) ∧
    rating 90 = "excellent" ∧ rating ((89999 : ℚ)/1000) = "good" ∧
    rating 80 = "good" ∧ rating ((79999 : ℚ)/1000) = "fair" := by
  refine ⟨fun v => ?_, by decide, by norm_num [rating], by decide, by norm_num [rating]⟩
  unfold rating
  by_cases h90 : v ≥ 90
  · rw [if_pos h90]
    exact ⟨⟨fun _ => h90, fun _ => rfl⟩,
           ⟨fun h => absurd h (by decide), fun h => absurd h.2 (not_lt.mpr h90)⟩,
           ⟨fun h => absurd h (by decide), fun h => absurd h (not_lt.mpr (by linarith))⟩⟩
  · rw [if_neg h90]
    by_cases h80 : v ≥ 80
    · rw [if_pos h80]
      exact ⟨⟨fun h => absurd h (by decide), fun h => absurd h h90⟩,
             ⟨fun _ => ⟨h80, not_le.mp h90⟩, fun _ => rfl⟩,
             ⟨fun h => absurd h (by decide), fun h => absurd h (not_lt.mpr h80)⟩⟩
    · rw [if_neg h80]
      exact ⟨⟨fun h => absurd h (by decide), fun h => absurd h h90⟩,
             ⟨fun h => absurd h (by decide), fun h => absurd h.1 h80⟩,
             ⟨fun _ => not_le.mp h80, fun _ => rfl⟩⟩

/-- C4: whenever the Aggregation Stage produces a summary, its
`totalLanguages` equals the sum of the lengths of all the language lists in
the input `languagesByCategory` mapping. -/
theorem c4_totalLanguages (now : String) (e : EnrichedDocument) (s : SummaryDocument)
    (h : aggregate now e = .ok s) :
    s.totalLanguages = (e.languagesByCategory.map (fun p => p.2.length)).sum := by
  obtain ⟨best, _, hs⟩ := aggregate_ok_elim h
  rw [hs]

/-- Concrete run of C4: a two-category enriched document with three
languages in total yields totalLanguages = 3. -/
theorem c4_totalLanguages_witness :
    ({ generatedBy := "python-transform"
       timestamp := "t"
       pipeline := "multi-lang-example"
       stepsCompleted := ["node-analyze", "node-transform", "python-analyze", "python-transform"]
       totalLanguages := 3
       bestCategory := ⟨"web", 92, "excellent"⟩
       allCategories :=
         [("web", ⟨"excellent", 92, ["JS", "TS"]⟩), ("sys", ⟨"good", 85, ["Rust"]⟩)]
       : SummaryDocument }).totalLanguages =
      (([("web", ["JS", "TS"]), ("sys", ["Rust"])] :
        List (String × List String)).map (fun p => p.2.length)).sum :=
  c4_totalLanguages "t"
    { generatedBy := "g"
      timestamp := "t"
      sourceStep := "s"
      categories := [("web", ⟨2, 92, "excellent"⟩), ("sys", ⟨1, 85, "good"⟩)]
      languagesByCategory := [("web", ["JS", "TS"]), ("sys", ["Rust"])] }
    _ (by rfl)

end Pipex


namespace Pipex

theorem lookupLangs_eq_nil {m : List (String × List String)} {cat : String}
    (h : ∀ q ∈ m, q.1 ≠ cat) : lookupLangs m cat = [] := by
  unfold lookupLangs
  rw [List.find?_eq_none.mpr]
  intro x hx
  simpa using h x hx

theorem aggregate_ok_of_ne_nil {now : String} {e : EnrichedDocument}
    (x : String × EnrichedCategory) (xs : List (String × EnrichedCategory))
    (hc : e.categories = x :: xs) :
    aggregate now e = .ok
      { generatedBy := "python-transform"
        timestamp := now
        pipeline := "multi-lang-example"
        stepsCompleted := ["node-analyze", "node-transform", "python-analyze", "python-transform"]
        totalLanguages := (e.languagesByCategory.map (fun p => p.2.length)).sum
        bestCategory :=
          ⟨(xs.foldl (fun best y => if y.2.avgScore > best.2.avgScore then y else best) x).1,
           (xs.foldl (fun best y => if y.2.avgScore > best.2.avgScore then y else best) x).2.avgScore,
           (xs.foldl (fun best y => if y.2.avgScore > best.2.avgScore then y else best) x).2.rating⟩
        allCategories := e.categories.map (fun p =>
          (p.1, ⟨p.2.rating, p.2.avgScore, lookupLangs e.languagesByCategory p.1⟩)) } := by
  have hp : pyMaxByAvgScore e.categories =
      .ok (xs.foldl (fun best y => if y.2.avgScore > best.2.avgScore then y else best) x) := by
    rw [hc]
    rfl
  unfold aggregate
  rw [hp]

end Pipex

namespace Pipex

/-- C8: for every category present in `categories`, the Aggregation Stage
produces an `allCategories` entry carrying that category rating and
avgScore together with its language list from `languagesByCategory`, and
the language list is empty when the category has no entry there; a missing
entry never causes a failure. -/
theorem c8_allCategories (now : String) (e : EnrichedDocument) (h : e.categories ≠ []) :
    ∃ s, aggregate now e = .ok s ∧
      (∀ cat info, (cat, info) ∈ e.categories →
        (cat, (⟨info.rating, info.avgScore, lookupLangs e.languagesByCategory cat⟩ :
          AllCategoriesEntry)) ∈ s.allCategories) ∧
      (∀ cat, (∀ q ∈ e.languagesByCategory, q.1 ≠ cat) →
        lookupLangs e.languagesByCategory cat = []) := by
  cases hc : e.categories with
  | nil => exact absurd hc h
  | cons x xs =>
    refine ⟨_, aggregate_ok_of_ne_nil x xs hc, ?_, ?_⟩
    · intro cat info hmem
      have hm2 := List.mem_map_of_mem
        (fun p => (p.1, (⟨p.2.rating, p.2.avgScore,
          lookupLangs e.languagesByCategory p.1⟩ : AllCategoriesEntry))) hmem
      simpa [hc] using hm2
    · intro cat hnone
      exact lookupLangs_eq_nil hnone

/-- Concrete run of C8: category "A" has no entry in `languagesByCategory`
and still yields a summary whose "A" entry has an empty language list. -/
theorem c8_allCategories_witness :
    ∃ s, aggregate "t" noLangsDoc = .ok s ∧
      (∀ cat info, (cat, info) ∈ noLangsDoc.categories →
        (cat, (⟨info.rating, info.avgScore,
          lookupLangs noLangsDoc.languagesByCategory cat⟩ : AllCategoriesEntry)) ∈
          s.allCategories) ∧
      (∀ cat, (∀ q ∈ noLangsDoc.languagesByCategory, q.1 ≠ cat) →
        lookupLangs noLangsDoc.languagesByCategory cat = []) :=
  c8_allCategories "t" noLangsDoc (by decide)

end Pipex

namespace Pipex

/-- C1 counterexample: `danglingKeyDoc` references category "B" in
`languagesByCategory` while "B" is absent from `categories`, yet the
Aggregation Stage does not fail — it produces a SummaryDocument (with the
dangling language counted in totalLanguages and "B" absent from
allCategories), contradicting the claim that every such input fails. -/
theorem c1_counterexample :
    "B" ∈ danglingKeyDoc.languagesByCategory.map Prod.fst ∧
    "B" ∉ danglingKeyDoc.categories.map Prod.fst ∧
    aggregate "t" danglingKeyDoc = .ok
      { generatedBy := "python-transform"
        timestamp := "t"
        pipeline := "multi-lang-example"
        stepsCompleted := ["node-analyze", "node-transform", "python-analyze", "python-transform"]
        totalLanguages := 1
        bestCategory := ⟨"A", 85, "good"⟩
        allCategories := [("A", ⟨"good", 85, []⟩)] } :=
  ⟨by decide, by decide, by rfl⟩

/-- C1 (amended): the Aggregation Stage fails, producing no summary and
writing no file, exactly when `categories` is empty; a category key
appearing in `languagesByCategory` but absent from `categories` does not
cause a failure. -/
theorem c1_amended (now : String) (e₁ e₂ : EnrichedDocument)
    (h1 : e₁.categories = []) (h2 : e₂.categories ≠ []) :
    aggregate now e₁ = .error .emptyCategories ∧
    transformFiles now e₁ = [] ∧
    ∃ s, aggregate now e₂ = .ok s := by
  have hp : pyMaxByAvgScore e₁.categories = .error .emptyCategories := by
    rw [h1]
    rfl
  have ha : aggregate now e₁ = .error .emptyCategories := by
    unfold aggregate
    rw [hp]
  refine ⟨ha, ?_, ?_⟩
  · unfold transformFiles
    rw [ha]
  · cases hc : e₂.categories with
    | nil => exact absurd hc h2
    | cons x xs => exact ⟨_, aggregate_ok_of_ne_nil x xs hc⟩

/-- Concrete run of C1 (amended): the empty-categories document fails and
writes nothing; the dangling-key document succeeds. -/
theorem c1_amended_witness :
    aggregate "t" emptyCategoriesDoc = .error .emptyCategories ∧
    transformFiles "t" emptyCategoriesDoc = [] ∧
    ∃ s, aggregate "t" danglingKeyDoc = .ok s :=
  c1_amended "t" emptyCategoriesDoc danglingKeyDoc (by rfl) (by decide)

end Pipex

namespace Pipex

theorem foldlMax_seed_le (xs : List (String × EnrichedCategory)) (x : String × EnrichedCategory) :
    x.2.avgScore ≤
      (xs.foldl (fun best y => if y.2.avgScore > best.2.avgScore then y else best) x).2.avgScore := by
  induction xs generalizing x with
  | nil => exact le_refl _
  | cons y ys ih =>
    rw [List.foldl_cons]
    by_cases hy : y.2.avgScore > x.2.avgScore
    · rw [if_pos hy]
      exact le_trans (le_of_lt hy) (ih y)
    · rw [if_neg hy]
      exact ih x

theorem foldlMax_mem_le (xs : List (String × EnrichedCategory)) (x : String × EnrichedCategory) :
    ∀ q ∈ x :: xs, q.2.avgScore ≤
      (xs.foldl (fun best y => if y.2.avgScore > best.2.avgScore then y else best) x).2.avgScore := by
  induction xs generalizing x with
  | nil =>
    intro q hq
    rw [List.mem_singleton] at hq
    rw [hq]
    exact le_refl _
  | cons y ys ih =>
    intro q hq
    rw [List.foldl_cons]
    by_cases hy : y.2.avgScore > x.2.avgScore
    · rw [if_pos hy]
      rcases List.mem_cons.mp hq with hqx | hq2
      · rw [hqx]
        exact le_trans (le_of_lt hy) (foldlMax_seed_le ys y)
      · exact ih y q hq2
    · rw [if_neg hy]
      rcases List.mem_cons.mp hq with hqx | hq2
      · rw [hqx]
        exact foldlMax_seed_le ys x
      · rcases List.mem_cons.mp hq2 with hqy | hq3
        · rw [hqy]
          exact le_trans (not_lt.mp hy) (foldlMax_seed_le ys x)
        · exact ih x q (List.mem_cons_of_mem x hq3)

theorem foldlMax_first (xs : List (String × EnrichedCategory)) (x : String × EnrichedCategory) :
    ∃ l₁ l₂, x :: xs = l₁ ++
        (xs.foldl (fun best y => if y.2.avgScore > best.2.avgScore then y else best) x) :: l₂ ∧
      ∀ q ∈ l₁, q.2.avgScore <
        (xs.foldl (fun best y => if y.2.avgScore > best.2.avgScore then y else best) x).2.avgScore := by
  induction xs generalizing x with
  | nil =>
    refine ⟨[], [], rfl, ?_⟩
    intro q hq
    exact absurd hq (List.not_mem_nil q)
  | cons y ys ih =>
    rw [List.foldl_cons]
    by_cases hy : y.2.avgScore > x.2.avgScore
    · rw [if_pos hy]
      obtain ⟨l₁, l₂, heq, hlt⟩ := ih y
      refine ⟨x :: l₁, l₂, ?_, ?_⟩
      · rw [List.cons_append, ← heq]
      · intro q hq
        rcases List.mem_cons.mp hq with hqx | hq2
        · rw [hqx]
          exact lt_of_lt_of_le hy (foldlMax_seed_le ys y)
        · exact hlt q hq2
    · rw [if_neg hy]
      obtain ⟨l₁, l₂, heq, hlt⟩ := ih x
      cases l₁ with
      | nil =>
        rw [List.nil_append] at heq
        have hx := (List.cons.injEq _ _ _ _).mp heq
        refine ⟨[], y :: ys, ?_, ?_⟩
        · rw [List.nil_append, ← hx.1]
        · intro q hq
          exact absurd hq (List.not_mem_nil q)
      | cons a l₁ =>
        rw [List.cons_append] at heq
        have hx := (List.cons.injEq _ _ _ _).mp heq
        have hxa : x.2.avgScore <
            (ys.foldl (fun best y => if y.2.avgScore > best.2.avgScore then y else best)
              x).2.avgScore := by
          have ha := hlt a (List.mem_cons_self a l₁)
          rwa [← hx.1] at ha
        refine ⟨x :: y :: l₁, l₂, ?_, ?_⟩
        · rw [List.cons_append, List.cons_append, ← hx.2]
        · intro q hq
          rcases List.mem_cons.mp hq with hqx | hq2
          · rw [hqx]
            exact hxa
          · rcases List.mem_cons.mp hq2 with hqy | hq3
            · rw [hqy]
              exact lt_of_le_of_lt (not_lt.mp hy) hxa
            · exact hlt q (List.mem_cons_of_mem a hq3)

end Pipex

namespace Pipex

/-- C3: whenever the Aggregation Stage produces a summary, its bestCategory
is the first entry of `categories`, in iteration order, attaining the
maximum avgScore: `categories` splits as a prefix of strictly smaller
entries, the selected entry, and a remainder, with every entry bounded by
the selected avgScore. -/
theorem c3_bestCategory (now : String) (e : EnrichedDocument) (s : SummaryDocument)
    (h : aggregate now e = .ok s) :
    ∃ best l₁ l₂,
      pyMaxByAvgScore e.categories = .ok best ∧
      s.bestCategory = ⟨best.1, best.2.avgScore, best.2.rating⟩ ∧
      e.categories = l₁ ++ best :: l₂ ∧
      (∀ q ∈ l₁, q.2.avgScore < best.2.avgScore) ∧
      (∀ q ∈ e.categories, q.2.avgScore ≤ best.2.avgScore) := by
  obtain ⟨best, hb, hs⟩ := aggregate_ok_elim h
  cases hc : e.categories with
  | nil =>
    rw [hc] at hb
    exact absurd hb (by simp [pyMaxByAvgScore])
  | cons x xs =>
    rw [hc] at hb
    simp only [pyMaxByAvgScore, Except.ok.injEq] at hb
    obtain ⟨l₁, l₂, heq, hlt⟩ := foldlMax_first xs x
    refine ⟨best, l₁, l₂, ?_, ?_, ?_, ?_, ?_⟩
    · simp [pyMaxByAvgScore, hb]
    · rw [hs]
    · rw [← hb]
      exact heq
    · rw [← hb]
      exact hlt
    · rw [← hb]
      exact foldlMax_mem_le xs x

/-- Concrete run of C3: on categories A: 85, B: 92, C: 92 in that order the
selected best category is named "B" (first maximum wins the tie). -/
theorem c3_bestCategory_witness :
    ∃ best l₁ l₂,
      pyMaxByAvgScore tieDoc.categories = .ok best ∧
      ({ generatedBy := "python-transform"
         timestamp := "t"
         pipeline := "multi-lang-example"
         stepsCompleted := ["node-analyze", "node-transform", "python-analyze", "python-transform"]
         totalLanguages := 0
         bestCategory := ⟨"B", 92, "excellent"⟩
         allCategories := [("A", ⟨"good", 85, []⟩), ("B", ⟨"excellent", 92, []⟩),
                           ("C", ⟨"excellent", 92, []⟩)]
         : SummaryDocument }).bestCategory = ⟨best.1, best.2.avgScore, best.2.rating⟩ ∧
      tieDoc.categories = l₁ ++ best :: l₂ ∧
      (∀ q ∈ l₁, q.2.avgScore < best.2.avgScore) ∧
      (∀ q ∈ tieDoc.categories, q.2.avgScore ≤ best.2.avgScore) :=
  c3_bestCategory "t" tieDoc _ (by rfl)

end Pipex

namespace Pipex

theorem enrichCategories_ok {sm : List (String × RawStats)}
    {cats : List (String × EnrichedCategory)}
    (h : enrichCategories sm = .ok cats) :
    cats.map Prod.fst = sm.map Prod.fst ∧
    ∀ pq ∈ sm.zip cats,
      pq.1.1 = pq.2.1 ∧ pq.1.2.count = some pq.2.2.count ∧
      pq.1.2.avgScore = some pq.2.2.avgScore ∧ pq.2.2.rating = rating pq.2.2.avgScore := by
  induction sm generalizing cats with
  | nil =>
    simp only [enrichCategories, Except.ok.injEq] at h
    subst h
    exact ⟨rfl, by intro pq hpq; exact absurd hpq (List.not_mem_nil pq)⟩
  | cons p rest ih =>
    obtain ⟨k, st⟩ := p
    simp only [enrichCategories] at h
    cases hcnt : st.count with
    | none => rw [hcnt] at h; exact absurd h (by simp)
    | some c =>
      rw [hcnt] at h
      cases havg : st.avgScore with
      | none => rw [havg] at h; exact absurd h (by simp)
      | some a =>
        rw [havg] at h
        cases htl : enrichCategories rest with
        | error e => rw [htl] at h; exact absurd h (by simp)
        | ok tail =>
          rw [htl] at h
          simp only [Except.ok.injEq] at h
          subst h
          obtain ⟨ihmap, ihzip⟩ := ih htl
          refine ⟨by simp [ihmap], ?_⟩
          intro pq hpq
          rw [List.zip_cons_cons] at hpq
          rcases List.mem_cons.mp hpq with hph | hpt
          · rw [hph]
            exact ⟨rfl, hcnt, havg, rfl⟩
          · exact ihzip pq hpt

theorem enrich_ok_elim {now : String} {r : RawReport} {d : EnrichedDocument}
    (h : enrich now r = .ok d) :
    ∃ sm rk cats entries,
      r.summary = some sm ∧ r.ranked = some rk ∧
      enrichCategories sm = .ok cats ∧ validateRanked rk = .ok entries ∧
      d = { generatedBy := "python-analyze"
            timestamp := now
            sourceStep := "node-transform"
            categories := cats
            languagesByCategory := groupLanguages entries } := by
  unfold enrich at h
  cases hsm : r.summary with
  | none => rw [hsm] at h; exact absurd h (by simp)
  | some sm =>
    rw [hsm] at h
    simp only [] at h
    cases hec : enrichCategories sm with
    | error e => rw [hec] at h; exact absurd h (by simp)
    | ok cats =>
      rw [hec] at h
      simp only [] at h
      cases hrk : r.ranked with
      | none => rw [hrk] at h; exact absurd h (by simp)
      | some rk =>
        rw [hrk] at h
        simp only [] at h
        cases hvr : validateRanked rk with
        | error e => rw [hvr] at h; exact absurd h (by simp)
        | ok entries =>
          rw [hvr] at h
          simp only [Except.ok.injEq] at h
          exact ⟨sm, rk, cats, entries, rfl, rfl, hec, hvr, h.symm⟩

end Pipex

namespace Pipex

/-- C5: whenever the Enrichment Stage succeeds, the key sequence of the
enriched `categories` equals the key sequence of the report `summary`
(hence the key sets are in bijection), and each enriched entry carries the
corresponding input entry `count` and `avgScore` unchanged. -/
theorem c5_categories_bijection (now : String) (r : RawReport)
    (sm : List (String × RawStats)) (d : EnrichedDocument)
    (hsm : r.summary = some sm) (h : enrich now r = .ok d) :
    d.categories.map Prod.fst = sm.map Prod.fst ∧
    ∀ pq ∈ sm.zip d.categories,
      pq.1.1 = pq.2.1 ∧ pq.1.2.count = some pq.2.2.count ∧
      pq.1.2.avgScore = some pq.2.2.avgScore := by
  obtain ⟨sm2, rk, cats, entries, hsm2, hrk, hec, hvr, hd⟩ := enrich_ok_elim h
  rw [hsm] at hsm2
  have hsm3 : sm = sm2 := by
    exact (Option.some.injEq _ _).mp hsm2
  subst hsm3
  obtain ⟨hmap, hzip⟩ := enrichCategories_ok hec
  subst hd
  exact ⟨hmap, fun pq hpq => ⟨(hzip pq hpq).1, (hzip pq hpq).2.1, (hzip pq hpq).2.2.1⟩⟩

/-- Concrete run of C5: the end-to-end example report enriches to exactly
one category "systems" with count 3 and avgScore 91 preserved. -/
theorem c5_categories_bijection_witness :
    ({ generatedBy := "python-analyze"
       timestamp := "t"
       sourceStep := "node-transform"
       categories := [("systems", ⟨3, 91, "excellent"⟩)]
       languagesByCategory := [("systems", ["Rust", "Go"])]
       : EnrichedDocument }).categories.map Prod.fst =
      [("systems", (⟨some 3, some 91⟩ : RawStats))].map Prod.fst ∧
    ∀ pq ∈ ([("systems", (⟨some 3, some 91⟩ : RawStats))]).zip
        ({ generatedBy := "python-analyze"
           timestamp := "t"
           sourceStep := "node-transform"
           categories := [("systems", ⟨3, 91, "excellent"⟩)]
           languagesByCategory := [("systems", ["Rust", "Go"])]
           : EnrichedDocument }).categories,
      pq.1.1 = pq.2.1 ∧ pq.1.2.count = some pq.2.2.count ∧
      pq.1.2.avgScore = some pq.2.2.avgScore :=
  c5_categories_bijection "t" systemsReport [("systems", ⟨some 3, some 91⟩)] _ (by rfl) (by rfl)

end Pipex

namespace Pipex

theorem lookupLangs_nil (cat : String) : lookupLangs [] cat = [] := rfl

theorem validateRanked_ok {rk : List RawRanked} {entries : List (String × String)}
    (h : validateRanked rk = .ok entries) :
    ∀ pq ∈ rk.zip entries, pq.1.category = some pq.2.1 ∧ pq.1.language = some pq.2.2 := by
  induction rk generalizing entries with
  | nil =>
    simp only [validateRanked, Except.ok.injEq] at h
    subst h
    intro pq hpq
    exact absurd hpq (List.not_mem_nil pq)
  | cons entry rest ih =>
    simp only [validateRanked] at h
    cases hcat : entry.category with
    | none => rw [hcat] at h; exact absurd h (by simp)
    | some cat =>
      rw [hcat] at h
      cases hlang : entry.language with
      | none => rw [hlang] at h; exact absurd h (by simp)
      | some lang =>
        rw [hlang] at h
        cases htl : validateRanked rest with
        | error e => rw [htl] at h; exact absurd h (by simp)
        | ok tail =>
          rw [htl] at h
          simp only [Except.ok.injEq] at h
          subst h
          intro pq hpq
          rw [List.zip_cons_cons] at hpq
          rcases List.mem_cons.mp hpq with hph | hpt
          · rw [hph]
            exact ⟨hcat, hlang⟩
          · exact ih htl pq hpt

theorem any_key_eq (m : List (String × List String)) (cat : String) :
    m.any (fun p => p.1 = cat) = true ↔ cat ∈ m.map Prod.fst := by
  rw [List.any_eq_true]
  constructor
  · rintro ⟨x, hx, hpx⟩
    rw [List.mem_map]
    exact ⟨x, hx, of_decide_eq_true hpx⟩
  · intro hmem
    obtain ⟨x, hx, hfx⟩ := List.mem_map.mp hmem
    exact ⟨x, hx, decide_eq_true hfx⟩

theorem appendToGroup_keys (m : List (String × List String)) (cat lang : String) :
    (appendToGroup m cat lang).map Prod.fst =
      if cat ∈ m.map Prod.fst then m.map Prod.fst else m.map Prod.fst ++ [cat] := by
  unfold appendToGroup
  by_cases hmem : cat ∈ m.map Prod.fst
  · rw [if_pos ((any_key_eq m cat).mpr hmem), if_pos hmem, List.map_map]
    apply List.map_congr_left
    intro p hp
    by_cases hpc : p.1 = cat
    · simp [hpc]
    · simp [hpc]
  · rw [if_neg (fun hc => hmem ((any_key_eq m cat).mp hc)), if_neg hmem, List.map_append]
    rfl

theorem lookupLangs_appendToGroup (m : List (String × List String)) (cat lang target : String) :
    lookupLangs (appendToGroup m cat lang) target =
      lookupLangs m target ++ if cat = target then [lang] else [] := by
  unfold appendToGroup lookupLangs
  by_cases hany : m.any (fun p => p.1 = cat) = true
  · rw [if_pos hany, List.find?_map]
    have hcomp : ((fun p : String × List String => decide (p.1 = target)) ∘
        (fun p => if p.1 = cat then (p.1, p.2 ++ [lang]) else p)) =
        fun p : String × List String => decide (p.1 = target) := by
      funext p
      by_cases hpc : p.1 = cat
      · simp [Function.comp, hpc]
      · simp [Function.comp, hpc]
    rw [hcomp]
    cases hf : m.find? (fun p => p.1 = target) with
    | none =>
      by_cases hct : cat = target
      · exfalso
        obtain ⟨x, hx, hfx⟩ := List.mem_map.mp ((any_key_eq m cat).mp hany)
        have hnone := List.find?_eq_none.mp hf x hx
        rw [hct] at hfx
        exact hnone (decide_eq_true hfx)
      · simp [hct]
    | some p =>
      have hp1 : p.1 = target := by simpa using List.find?_some hf
      by_cases hct : cat = target
      · have hpc : p.1 = cat := by rw [hp1, hct]
        simp [hpc, hct]
      · have hpc : ¬p.1 = cat := by
          rw [hp1]
          exact fun hh => hct hh.symm
        simp [hpc, hct]
  · rw [if_neg hany, List.find?_append]
    cases hf : m.find? (fun p => p.1 = target) with
    | some p =>
      have hct : ¬cat = target := by
        intro hct
        apply hany
        rw [List.any_eq_true]
        have hp1 : p.1 = target := by simpa using List.find?_some hf
        exact ⟨p, List.mem_of_find?_eq_some hf, decide_eq_true (by rw [hp1, hct])⟩
      simp [Option.or, hct]
    | none =>
      by_cases hct : cat = target
      · simp [List.find?, Option.or, hct]
      · simp [List.find?, Option.or, hct]

theorem groupLoop_lookup (entries : List (String × String))
    (m : List (String × List String)) (target : String) :
    lookupLangs (entries.foldl (fun mm e => appendToGroup mm e.1 e.2) m) target =
      lookupLangs m target ++ (entries.filter (fun p => p.1 = target)).map Prod.snd := by
  induction entries generalizing m with
  | nil => simp
  | cons e rest ih =>
    rw [List.foldl_cons, ih, lookupLangs_appendToGroup]
    by_cases he : e.1 = target
    · simp [List.filter_cons, he, List.append_assoc]
    · simp [List.filter_cons, he]

theorem groupLoop_keys (entries : List (String × String))
    (m : List (String × List String)) :
    (entries.foldl (fun mm e => appendToGroup mm e.1 e.2) m).map Prod.fst =
      (entries.map Prod.fst).foldl
        (fun acc k => if k ∈ acc then acc else acc ++ [k]) (m.map Prod.fst) := by
  induction entries generalizing m with
  | nil => rfl
  | cons e rest ih =>
    rw [List.foldl_cons, List.map_cons, List.foldl_cons, ih, appendToGroup_keys]

end Pipex

namespace Pipex

/-- C6: whenever the Enrichment Stage succeeds, its `languagesByCategory`
is the grouping fold over the validated `ranked` entries (each carrying the
category and language of the corresponding input entry, in order); within
every category the grouped languages are exactly the languages of the
ranked entries of that category in their original relative order, and the
group keys appear in first-seen order. -/
theorem c6_grouping (now : String) (r : RawReport) (rk : List RawRanked)
    (d : EnrichedDocument) (hrk : r.ranked = some rk) (h : enrich now r = .ok d) :
    ∃ entries, validateRanked rk = .ok entries ∧
      (∀ pq ∈ rk.zip entries, pq.1.category = some pq.2.1 ∧ pq.1.language = some pq.2.2) ∧
      d.languagesByCategory = groupLanguages entries ∧
      (∀ cat, lookupLangs d.languagesByCategory cat =
        (entries.filter (fun p => p.1 = cat)).map Prod.snd) ∧
      d.languagesByCategory.map Prod.fst = firstSeenOrder (entries.map Prod.fst) := by
  obtain ⟨sm, rk2, cats, entries, hsm, hrk2, hec, hvr, hd⟩ := enrich_ok_elim h
  rw [hrk] at hrk2
  have hrkeq : rk = rk2 := (Option.some.injEq _ _).mp hrk2
  subst hrkeq
  refine ⟨entries, hvr, validateRanked_ok hvr, by rw [hd], ?_, ?_⟩
  · intro cat
    rw [hd]
    have hloop := groupLoop_lookup entries [] cat
    rw [lookupLangs_nil, List.nil_append] at hloop
    exact hloop
  · rw [hd]
    have hkeys := groupLoop_keys entries []
    simpa [firstSeenOrder] using hkeys

/-- Concrete run of C6: the end-to-end example ranked list groups to
systems -> Rust, Go in rank order. -/
theorem c6_grouping_witness :
    ∃ entries, validateRanked [⟨some "Rust", some "systems"⟩, ⟨some "Go", some "systems"⟩] =
        .ok entries ∧
      (∀ pq ∈ ([⟨some "Rust", some "systems"⟩, ⟨some "Go", some "systems"⟩] :
          List RawRanked).zip entries,
        pq.1.category = some pq.2.1 ∧ pq.1.language = some pq.2.2) ∧
      ([("systems", ["Rust", "Go"])] : List (String × List String)) = groupLanguages entries ∧
      (∀ cat, lookupLangs [("systems", ["Rust", "Go"])] cat =
        (entries.filter (fun p => p.1 = cat)).map Prod.snd) ∧
      ([("systems", ["Rust", "Go"])] : List (String × List String)).map Prod.fst =
        firstSeenOrder (entries.map Prod.fst) :=
  c6_grouping "t" systemsReport
    [⟨some "Rust", some "systems"⟩, ⟨some "Go", some "systems"⟩]
    { generatedBy := "python-analyze"
      timestamp := "t"
      sourceStep := "node-transform"
      categories := [("systems", ⟨3, 91, "excellent"⟩)]
      languagesByCategory := [("systems", ["Rust", "Go"])] }
    (by rfl) (by rfl)

end Pipex

namespace Pipex

theorem enrichCategories_error_of_bad {sm : List (String × RawStats)}
    (h : ∃ p ∈ sm, p.2.count = none ∨ p.2.avgScore = none) :
    ∃ e, enrichCategories sm = .error e := by
  induction sm with
  | nil =>
    obtain ⟨p, hp, _⟩ := h
    exact absurd hp (List.not_mem_nil p)
  | cons q rest ih =>
    obtain ⟨k, st⟩ := q
    obtain ⟨p, hp, hbad⟩ := h
    simp only [enrichCategories]
    rcases List.mem_cons.mp hp with hph | hpt
    · subst hph
      rcases hbad with hcnt | havg
      · rw [hcnt]
        exact ⟨.missingKey "count", rfl⟩
      · cases hcnt : st.count with
        | none => exact ⟨.missingKey "count", rfl⟩
        | some c =>
          rw [havg]
          exact ⟨.missingKey "avgScore", rfl⟩
    · cases hcnt : st.count with
      | none => exact ⟨.missingKey "count", rfl⟩
      | some c =>
        cases havg : st.avgScore with
        | none => exact ⟨.missingKey "avgScore", rfl⟩
        | some a =>
          obtain ⟨e, he⟩ := ih ⟨p, hpt, hbad⟩
          rw [he]
          exact ⟨e, rfl⟩

end Pipex

namespace Pipex

/-- C7: a report missing the `summary` key or the `ranked` key, or whose
summary contains a stats entry without `count` or without `avgScore`,
makes the Enrichment Stage fail with an InputError, and neither output
file is written. -/
theorem c7_missing_fields (now : String) (r : RawReport)
    (h : r.summary = none ∨ r.ranked = none ∨
      ∃ p ∈ r.summary.getD [], p.2.count = none ∨ p.2.avgScore = none) :
    (∃ e, enrich now r = .error e) ∧ analyzeFiles now r = [] := by
  have herr : ∃ e, enrich now r = .error e := by
    cases hsm : r.summary with
    | none =>
      refine ⟨.missingKey "summary", ?_⟩
      unfold enrich
      rw [hsm]
    | some sm =>
      rcases h with h1 | h2 | h3
      · rw [hsm] at h1
        exact absurd h1 (by simp)
      · cases hec : enrichCategories sm with
        | error e =>
          refine ⟨e, ?_⟩
          unfold enrich
          rw [hsm]
          simp only []
          rw [hec]
        | ok cats =>
          refine ⟨.missingKey "ranked", ?_⟩
          unfold enrich
          rw [hsm]
          simp only []
          rw [hec]
          simp only []
          rw [h2]
      · rw [hsm] at h3
        simp only [Option.getD_some] at h3
        obtain ⟨e, he⟩ := enrichCategories_error_of_bad h3
        refine ⟨e, ?_⟩
        unfold enrich
        rw [hsm]
        simp only []
        rw [he]
  obtain ⟨e, he⟩ := herr
  refine ⟨⟨e, he⟩, ?_⟩
  unfold analyzeFiles
  rw [he]

/-- Concrete run of C7: a report with neither `summary` nor `ranked` fails
and writes no file. -/
theorem c7_missing_fields_witness :
    (∃ e, enrich "t" missingKeysReport = .error e) ∧
    analyzeFiles "t" missingKeysReport = [] :=
  c7_missing_fields "t" missingKeysReport (Or.inl rfl)

end Pipex

namespace Pipex

theorem decodeStrings_map_str (l : List String) :
    decodeStrings (l.map .str) = some l := by
  induction l with
  | nil => rfl
  | cons s rest ih => simp [decodeStrings, ih]

theorem decodeCategories_encode (l : List (String × EnrichedCategory)) :
    decodeCategories (l.map (fun p =>
      (p.1, .obj [("count", .int p.2.count),
                  ("avgScore", .num p.2.avgScore),
                  ("rating", .str p.2.rating)]))) = some l := by
  induction l with
  | nil => rfl
  | cons p rest ih => simp [decodeCategories, decodeCategory, ih]

theorem decodeLangGroups_encode (l : List (String × List String)) :
    decodeLangGroups (l.map (fun p => (p.1, .arr (p.2.map .str)))) = some l := by
  induction l with
  | nil => rfl
  | cons p rest ih => simp [decodeLangGroups, decodeStrings_map_str, ih]

theorem decodeAllCategories_encode (l : List (String × AllCategoriesEntry)) :
    decodeAllCategories (l.map (fun p =>
      (p.1, .obj [("rating", .str p.2.rating),
                  ("avgScore", .num p.2.avgScore),
                  ("languages", .arr (p.2.languages.map .str))]))) = some l := by
  induction l with
  | nil => rfl
  | cons p rest ih =>
    simp [decodeAllCategories, decodeAllCategoriesEntry, decodeStrings_map_str, ih]

end Pipex

namespace Pipex

set_option maxHeartbeats 2000000 in
/-- C9: deserializing the serialized value tree of a document recovers the
document exactly, field for field with the mapping key order preserved, for
both the EnrichedDocument and the SummaryDocument; both output files of a
stage serialize one identical in-memory tree. -/
theorem c9_serialization_roundtrip :
    (∀ d : EnrichedDocument, decodeEnriched (encodeEnriched d) = some d) ∧
    (∀ s : SummaryDocument, decodeSummary (encodeSummary s) = some s) := by
  constructor
  · intro d
    simp [encodeEnriched, decodeEnriched, decodeCategories_encode, decodeLangGroups_encode]
  · intro s
    simp [encodeSummary, decodeSummary, decodeStrings_map_str, decodeAllCategories_encode]

/-- C10: with the /app mount writable the Enrichment Stage script exits
with status 1 before reading input, performing no transformation and
writing no output; with /app read-only (the OSError branch) it proceeds
with the normal read-enrich-write path. -/
theorem c10_readonly_check (now : String) (r : RawReport) :
    analyzeMain true now r = StageResult.exited 1 ∧
    analyzeMainFiles true now r = [] ∧
    analyzeMain false now r = enrichOutcome now r ∧
    analyzeMainFiles false now r = analyzeFiles now r :=
  ⟨rfl, rfl, rfl, rfl⟩

end Pipex
